import Mathlib

/-!
Verification of the gitree Concurrent Repository Discovery & Status Engine.

This file gives a shallow embedding, in Lean, of the core of the gitree
repository: the clean-repository classifier (`internal/cli/filter.go`), the
directory scanner (`internal/scanner`), the per-repository status extractor
(`internal/gitstatus/status.go`), and the fetch subsystem
(`internal/gitstatus/fetch.go`).  Effectful Go code is embedded as explicit
state passing over abstract views of the filesystem and of the underlying
git library, and the stated theorems settle the specification's claims
about these components.
-/

namespace Gitree

/-! ## Data model (`internal/models`)

`GitStatus` mirrors the Go struct field for field; Go zero values become
the structure's default field values.  Go's `string`-valued error fields use
`""` as the "no error" sentinel, exactly as the source does. -/

structure GitStatus where
  Branch : String := ""
  IsDetached : Bool := false
  HasRemote : Bool := false
  Ahead : Nat := 0
  Behind : Nat := 0
  HasStashes : Bool := false
  HasChanges : Bool := false
  Error : String := ""
  FetchError : String := ""
deriving DecidableEq, Repr

/-- `models.Repository`.  The Go field `GitStatus *GitStatus` is a nullable
pointer, embedded as an `Option`. -/
structure Repository where
  Path : String
  Name : String
  IsBare : Bool := false
  IsSymlink : Bool := false
  GitStatus : Option GitStatus := none
deriving DecidableEq, Repr

/-! ## Classifier (`internal/cli/filter.go`) -/

/-- `cli.FilterOptions`. -/
structure FilterOptions where
  ShowAll : Bool := false
deriving DecidableEq, Repr

/-- `cli.IsClean`.  The Go function takes a possibly-nil `*models.Repository`,
embedded as an `Option Repository`; each early `return false` of the source
becomes one guard. -/
def IsClean (repo : Option Repository) : Bool :=
  match repo with
  | none => false
  | some r =>
    match r.GitStatus with
    | none => false
    | some status =>
      if status.Error != "" then false
      else if status.Branch != "main" && status.Branch != "master" then false
      else if status.HasChanges then false
      else if status.HasStashes then false
      else if !status.HasRemote then false
      else if status.Ahead > 0 then false
      else if status.Behind > 0 then false
      else if status.IsDetached then false
      else true

/-- `cli.FilterRepositories`.  The Go loop appends each repository that is
not clean to a fresh slice; the loop is embedded as a `foldl` that appends. -/
def FilterRepositories (repos : List (Option Repository)) (opts : FilterOptions) :
    List (Option Repository) :=
  if opts.ShowAll then repos
  else repos.foldl (fun filtered repo => if !IsClean repo then filtered ++ [repo] else filtered) []

theorem foldl_filter_append (p : Option Repository → Bool)
    (l : List (Option Repository)) (acc : List (Option Repository)) :
    l.foldl (fun filtered repo => if p repo then filtered ++ [repo] else filtered) acc
      = acc ++ l.filter p := by
  induction l generalizing acc with
  | nil => simp
  | cons x xs ih =>
    cases hc : p x <;> simp [List.filter_cons, hc, ih]

/-- C1: `IsClean` returns `true` exactly when the record has a status, the
status carries no extraction error, its branch is `main` or `master`, there
are no uncommitted changes, no stashes, a remote is configured, the ahead and
behind counts are both zero, and HEAD is not detached; a missing status or
the failure of any single condition yields `false`. -/
theorem isClean_iff_all_conditions (r : Repository) :
    IsClean (some r) = true ↔
      ∃ s, r.GitStatus = some s ∧ s.Error = "" ∧
        (s.Branch = "main" ∨ s.Branch = "master") ∧
        s.HasChanges = false ∧ s.HasStashes = false ∧ s.HasRemote = true ∧
        s.Ahead = 0 ∧ s.Behind = 0 ∧ s.IsDetached = false := by
  cases h : r.GitStatus with
  | none => simp [IsClean, h]
  | some s =>
    simp only [IsClean, h, Option.some.injEq, exists_eq_left']
    split_ifs with h1 h2 h3 h4 h5 h6 h7 h8 <;>
      simp_all [bne_iff_ne, Bool.and_eq_true, not_or, Nat.pos_iff_ne_zero] <;>
      tauto

/-- C10: with `ShowAll = false`, `FilterRepositories` returns exactly the
records that are not clean, in input order (it equals `List.filter` of the
input, and the input list itself is never mutated in this pure embedding);
with `ShowAll = true` it returns the input unchanged. -/
theorem filterRepositories_spec (repos : List (Option Repository)) :
    FilterRepositories repos { ShowAll := false } = repos.filter (fun r => !IsClean r) ∧
    FilterRepositories repos { ShowAll := true } = repos := by
  constructor
  · simpa [FilterRepositories] using
      foldl_filter_append (fun r => !IsClean r) repos []
  · simp [FilterRepositories]

/-! ## Fetch subsystem (`internal/gitstatus/fetch.go`)

Durations are embedded as `Nat` nanoseconds (Go's `time.Duration` unit).
The exponential in `calculateBackoff` is computed by Go through
`math.Pow(2, attempt-1)`, which is exact for every attempt index the
program can reach, so the embedding uses exact natural-number
arithmetic. -/

def baseBackoffDelay : Nat := 500 * 1000000

def maxBackoffDelay : Nat := 10 * 1000000000

def backoffExponentTwo : Nat := 2

/-- `gitstatus.calculateBackoff`: exponential backoff
`base * 2^(attempt-1)` capped at `maxBackoffDelay`. -/
def calculateBackoff (attempt : Nat) : Nat :=
  min (baseBackoffDelay * backoffExponentTwo ^ (attempt - 1)) maxBackoffDelay

/-- `gitstatus.ExtractOptions`, restricted to the fields the fetch
subsystem reads.  `FetchRetries` is a Go `int`, embedded as `Int` so that
the `<= 0` default check is faithful. -/
structure ExtractOptions where
  Timeout : Nat := 0
  MaxConcurrency : Nat := 0
  Fetch : Bool := false
  FetchRetries : Int := 0
  Debug : Bool := false
deriving DecidableEq, Repr

/-- Modelled from the spec: the default retry count used when
`FetchRetries <= 0` is declared in a source file that is not part of the
provided sources (`defaultFetchRetries`); the spec fixes only that retries
are bounded, and none of the theorems below depend on the exact value. -/
def defaultFetchRetries : Nat := 3

/-- Outcome of one `performFetch` call, abstracting the go-git fetch:
success, `git.NoErrAlreadyUpToDate` (treated as success), or a failure
whose error may match `context.Canceled` / `context.DeadlineExceeded`. -/
inductive AttemptOutcome where
  | ok
  | alreadyUpToDate
  | fail (msg : String) (isCanceled : Bool) (isDeadlineExceeded : Bool)
deriving DecidableEq, Repr

/-- The `origin` remote's configuration as read by `remote.Config()`. -/
structure RemoteConfig where
  URLs : List String := []
deriving DecidableEq, Repr

/-- Abstract view of one repository as seen by `fetchFromOrigin` after
`git.PlainOpen` succeeds: the `origin` remote (if any) and the outcome the
network would give to each successive fetch attempt. -/
structure FetchRepoView where
  origin : Option RemoteConfig := none
  attempts : List AttemptOutcome := []
deriving DecidableEq, Repr

instance {ε α : Type} [DecidableEq ε] [DecidableEq α] : DecidableEq (Except ε α)
  | .error e, .error f =>
    if h : e = f then .isTrue (congrArg Except.error h)
    else .isFalse (fun hh => h (Except.error.inj hh))
  | .ok x, .ok y =>
    if h : x = y then .isTrue (congrArg Except.ok h)
    else .isFalse (fun hh => h (Except.ok.inj hh))
  | .error _, .ok _ => .isFalse (fun hh => Except.noConfusion hh)
  | .ok _, .error _ => .isFalse (fun hh => Except.noConfusion hh)

/-- Environment for one `fetchFromOrigin` call: the `git.PlainOpen`
result and the points at which the cancellation signal has fired
(`cancelBefore i` models `ctx.Done()` being signalled at the check before
attempt `i`; `cancelInSleep i` models it firing during the backoff sleep
preceding attempt `i`). -/
structure FetchEnv where
  openRes : Except String FetchRepoView := .error "no repository"
  cancelBefore : List Bool := []
  cancelInSleep : List Bool := []
deriving DecidableEq, Repr

/-- `gitstatus.FetchResult`. -/
structure FetchResult where
  Success : Bool := false
  Skipped : Bool := false
  Error : Option String := none
  Retries : Nat := 0
deriving DecidableEq, Repr

/-- The retry loop of `gitstatus.fetchFromOrigin` (`for attempt := range
maxRetries`).  Each iteration first checks the cancellation signal, then
(for `attempt > 0`) sleeps the backoff delay unless cancellation fires
during the sleep, then performs one fetch; `ok` and `alreadyUpToDate`
return success, a canceled or deadline-exceeded error breaks out of the
loop, and any other error is retried.  Leaving the loop wraps the last
error as `fetch failed after retries`. -/
def fetchLoop (v : FetchRepoView) (env : FetchEnv) (maxRetries attempt : Nat)
    (lastErr : Option String) : FetchResult :=
  if attempt < maxRetries then
    if env.cancelBefore.getD attempt false then
      { Retries := attempt, Error := some "context canceled" }
    else if attempt > 0 && env.cancelInSleep.getD attempt false then
      { Retries := attempt, Error := some "context canceled" }
    else
      match v.attempts.getD attempt .ok with
      | .ok => { Retries := attempt, Success := true }
      | .alreadyUpToDate => { Retries := attempt, Success := true }
      | .fail msg isCanceled isDeadline =>
        if isCanceled || isDeadline then
          { Retries := attempt, Error := some ("fetch failed after retries: " ++ msg) }
        else
          fetchLoop v env maxRetries (attempt + 1) (some msg)
  else
    { Retries := maxRetries - 1,
      Error := some ("fetch failed after retries: " ++ lastErr.getD "") }
termination_by maxRetries - attempt

/-- `gitstatus.fetchFromOrigin`: open the repository, skip (not an error)
when the `origin` remote is absent or has no configured URL, otherwise run
the retry loop. -/
def fetchFromOrigin (env : FetchEnv) (opts : ExtractOptions) : FetchResult :=
  match env.openRes with
  | .error e => { Error := some ("failed to open repository: " ++ e) }
  | .ok v =>
    match v.origin with
    | none => { Skipped := true }
    | some remoteConfig =>
      if remoteConfig.URLs.length = 0 then { Skipped := true }
      else
        let maxRetries : Nat :=
          if opts.FetchRetries ≤ 0 then defaultFetchRetries else opts.FetchRetries.toNat
        fetchLoop v env maxRetries 0 none

/-- `models.FetchStats`.  Counters are Go `int`s, embedded as `Int`. -/
structure FetchStats where
  TotalAttempted : Int := 0
  Successful : Int := 0
  Skipped : Int := 0
  Failed : Int := 0
  FailedRepos : List String := []
deriving DecidableEq, Repr

/-- The dispatch loop of `gitstatus.fetchBatch` (`for path, repo := range
repos`): `nil` repositories are ignored, bare repositories bump `Skipped`
without spawning a worker, and every other repository bumps
`TotalAttempted` and gets a fetch job.  Returns the updated statistics and
the job list in dispatch order. -/
def fetchBatchSpawn : List (String × Option Repository) → FetchStats →
    FetchStats × List String
  | [], stats => (stats, [])
  | (_, none) :: rest, stats => fetchBatchSpawn rest stats
  | (path, some repo) :: rest, stats =>
    if repo.IsBare then
      fetchBatchSpawn rest { stats with Skipped := stats.Skipped + 1 }
    else
      let spawned := fetchBatchSpawn rest { stats with TotalAttempted := stats.TotalAttempted + 1 }
      (spawned.1, path :: spawned.2)

/-- One iteration of the result-collection loop of `gitstatus.fetchBatch`:
a skipped result bumps `Skipped` and takes back the provisional
`TotalAttempted` count, a success bumps `Successful`, and anything else
bumps `Failed`, records the path, and stores the fetch error in the
repository's `GitStatus.FetchError` (creating the status if necessary). -/
def applyFetchOutcome (stats : FetchStats) (repoMap : String → Option Repository)
    (path : String) (res : FetchResult) : FetchStats × (String → Option Repository) :=
  if res.Skipped then
    ({ stats with Skipped := stats.Skipped + 1, TotalAttempted := stats.TotalAttempted - 1 },
      repoMap)
  else if res.Success then
    ({ stats with Successful := stats.Successful + 1 }, repoMap)
  else
    ({ stats with Failed := stats.Failed + 1, FailedRepos := stats.FailedRepos ++ [path] },
      match repoMap path, res.Error with
      | some repo, some msg =>
        let status := repo.GitStatus.getD {}
        fun q =>
          if q = path then some { repo with GitStatus := some { status with FetchError := msg } }
          else repoMap q
      | _, _ => repoMap)

/-- The result-collection loop of `gitstatus.fetchBatch` (`for r := range
results`), folded over the completed results in completion order. -/
def fetchBatchCollect : List (String × FetchResult) → FetchStats →
    (String → Option Repository) → FetchStats × (String → Option Repository)
  | [], stats, m => (stats, m)
  | (path, res) :: rest, stats, m =>
    let applied := applyFetchOutcome stats m path res
    fetchBatchCollect rest applied.1 applied.2

/-- The `repos` map argument of `fetchBatch`, as a lookup function over the
association list that models its (arbitrary) iteration order. -/
def reposMapOf (repos : List (String × Option Repository)) : String → Option Repository :=
  fun q =>
    match repos.find? (fun e => e.1 == q) with
    | some e => e.2
    | none => none

/-- `gitstatus.fetchBatch`: dispatch fetch jobs for the non-nil, non-bare
repositories, then collect the per-job `fetchFromOrigin` results.  `order`
is the completion order of the concurrent workers, constrained in the
theorems below to be a permutation of the dispatched jobs; `fenv` gives
each repository path its fetch environment. -/
def fetchBatch (repos : List (String × Option Repository)) (fenv : String → FetchEnv)
    (opts : ExtractOptions) (order : List String) (stats0 : FetchStats) :
    FetchStats × (String → Option Repository) :=
  let spawned := fetchBatchSpawn repos stats0
  fetchBatchCollect (order.map fun p => (p, fetchFromOrigin (fenv p) opts))
    spawned.1 (reposMapOf repos)

/-- Entry predicate: a non-nil bare repository (skipped at dispatch). -/
def isBareEntry (e : String × Option Repository) : Bool :=
  match e.2 with
  | some r => r.IsBare
  | none => false

/-- Entry predicate: a non-nil, non-bare repository (gets a fetch job). -/
def isFetchJobEntry (e : String × Option Repository) : Bool :=
  match e.2 with
  | some r => !r.IsBare
  | none => false

/-- The remote-side skip conditions of `fetchFromOrigin`: the repository
opens but the `origin` remote is absent or has no configured URL. -/
def fetchSkipsByRemote (env : FetchEnv) : Bool :=
  match env.openRes with
  | .ok v =>
    match v.origin with
    | none => true
    | some c => c.URLs.length == 0
  | .error _ => false

/-- The skip conditions of the claim: bare repository, no `origin`
remote, or no configured URL on the remote. -/
def fetchSkipReason (r : Repository) (env : FetchEnv) : Bool :=
  r.IsBare || fetchSkipsByRemote env

/-- A fetch job that is counted as failed by the collection loop. -/
def fetchFails (env : FetchEnv) (opts : ExtractOptions) : Bool :=
  !(fetchFromOrigin env opts).Skipped && !(fetchFromOrigin env opts).Success

/-- C5: the backoff delay before retry attempt `n ≥ 1` (written `n+1` here)
is `min(baseDelay * 2^(n-1), maxDelay)` in nanoseconds; with
`baseDelay = 500ms` and `maxDelay = 10s` the delays for attempts
1, 2, 3, 4, 5, 6 and 10 are 500ms, 1s, 2s, 4s, 8s, 10s (capped) and 10s. -/
theorem calculateBackoff_formula :
    (∀ n : Nat, calculateBackoff (n + 1) = min (500 * 1000000 * 2 ^ n) (10 * 1000000000)) ∧
    calculateBackoff 1 = 500 * 1000000 ∧
    calculateBackoff 2 = 1000 * 1000000 ∧
    calculateBackoff 3 = 2000 * 1000000 ∧
    calculateBackoff 4 = 4000 * 1000000 ∧
    calculateBackoff 5 = 8000 * 1000000 ∧
    calculateBackoff 6 = 10000 * 1000000 ∧
    calculateBackoff 10 = 10000 * 1000000 := by
  refine ⟨fun n => ?_, by decide, by decide, by decide, by decide, by decide, by decide, by decide⟩
  simp [calculateBackoff, baseBackoffDelay, maxBackoffDelay, backoffExponentTwo]

theorem fetchLoop_not_skipped (v : FetchRepoView) (env : FetchEnv)
    (maxRetries attempt : Nat) (lastErr : Option String) :
    (fetchLoop v env maxRetries attempt lastErr).Skipped = false := by
  induction attempt, lastErr using fetchLoop.induct v env maxRetries
  all_goals rw [fetchLoop]
  all_goals (repeat' split) <;> simp_all

theorem fetchFromOrigin_skipped_iff (env : FetchEnv) (opts : ExtractOptions) :
    (fetchFromOrigin env opts).Skipped = fetchSkipsByRemote env := by
  unfold fetchFromOrigin fetchSkipsByRemote
  rcases henv : env.openRes with e | v
  · simp [henv]
  · simp only [henv]
    rcases ho : v.origin with _ | c
    · simp [ho]
    · simp only [ho]
      by_cases h : c.URLs.length = 0
      · simp [h]
      · have hne : ¬(c.URLs = []) := by simpa [List.length_eq_zero] using h
        simp [h, hne, fetchLoop_not_skipped]

theorem fetchFromOrigin_of_remote_skip (env : FetchEnv) (opts : ExtractOptions)
    (h : fetchSkipsByRemote env = true) :
    fetchFromOrigin env opts = { Skipped := true } := by
  unfold fetchFromOrigin
  unfold fetchSkipsByRemote at h
  cases henv : env.openRes with
  | error e => simp [henv] at h
  | ok v =>
    simp only [henv]
    cases ho : v.origin with
    | none => rfl
    | some c =>
      simp only [henv, ho] at h
      have hlen : c.URLs.length = 0 := by simpa using h
      simp [hlen]

theorem countP_and_split {α : Type} (a b : α → Bool) (l : List α) :
    l.countP (fun x => a x && b x) + l.countP (fun x => a x && !b x) = l.countP a := by
  induction l with
  | nil => simp
  | cons x xs ih =>
    cases ha : a x <;> cases hb : b x <;>
      simp [List.countP_cons, ha, hb] <;> omega

/-- A fetch result classified as failed by the collection loop. -/
def resFails (res : FetchResult) : Bool := !res.Skipped && !res.Success

theorem countP_or_disjoint {α : Type} (a b : α → Bool) (l : List α)
    (h : ∀ x, (a x && b x) = false) :
    l.countP (fun x => a x || b x) = l.countP a + l.countP b := by
  induction l with
  | nil => simp
  | cons x xs ih =>
    have hx := h x
    cases ha : a x <;> cases hb : b x <;>
      simp_all [List.countP_cons, ha, hb] <;> omega

theorem countP_pointwise_eq {α : Type} (p q : α → Bool) (l : List α)
    (h : ∀ x ∈ l, p x = q x) :
    l.countP p = l.countP q := by
  induction l with
  | nil => rfl
  | cons x xs ih =>
    have hx := h x (by simp)
    simp [List.countP_cons, hx, ih fun y hy => h y (by simp [hy])]

theorem fetchBatchSpawn_eq (repos : List (String × Option Repository)) (stats0 : FetchStats) :
    fetchBatchSpawn repos stats0 =
      ({ stats0 with
          Skipped := stats0.Skipped + (repos.countP isBareEntry : Int),
          TotalAttempted := stats0.TotalAttempted + (repos.countP isFetchJobEntry : Int) },
        (repos.filter isFetchJobEntry).map Prod.fst) := by
  induction repos generalizing stats0 with
  | nil => simp [fetchBatchSpawn]
  | cons e rest ih =>
    obtain ⟨p, or⟩ := e
    cases or with
    | none =>
      simp [fetchBatchSpawn, ih, isBareEntry, isFetchJobEntry, List.countP_cons,
        List.filter_cons]
    | some r =>
      cases hb : r.IsBare <;>
        simp [fetchBatchSpawn, hb, ih, isBareEntry, isFetchJobEntry, List.countP_cons,
          List.filter_cons, FetchStats.mk.injEq] <;>
        push_cast <;> omega

theorem fetchBatchCollect_stats (results : List (String × FetchResult))
    (stats0 : FetchStats) (m0 : String → Option Repository) :
    (fetchBatchCollect results stats0 m0).1 =
      { stats0 with
        Skipped := stats0.Skipped + (results.countP (fun e => e.2.Skipped) : Int),
        TotalAttempted :=
          stats0.TotalAttempted - (results.countP (fun e => e.2.Skipped) : Int),
        Successful :=
          stats0.Successful + (results.countP (fun e => !e.2.Skipped && e.2.Success) : Int),
        Failed := stats0.Failed + (results.countP (fun e => resFails e.2) : Int),
        FailedRepos :=
          stats0.FailedRepos ++ (results.filter (fun e => resFails e.2)).map Prod.fst } := by
  induction results generalizing stats0 m0 with
  | nil => simp [fetchBatchCollect]
  | cons e rest ih =>
    obtain ⟨p, res⟩ := e
    by_cases hs : res.Skipped = true
    · simp [fetchBatchCollect, applyFetchOutcome, hs, ih, resFails, List.countP_cons,
        List.filter_cons, FetchStats.mk.injEq] <;> push_cast <;> omega
    · by_cases hsu : res.Success = true
      · simp [fetchBatchCollect, applyFetchOutcome, hs, hsu, ih, resFails, List.countP_cons,
          List.filter_cons, FetchStats.mk.injEq] <;> push_cast <;> omega
      · simp [fetchBatchCollect, applyFetchOutcome, hs, hsu, ih, resFails, List.countP_cons,
          List.filter_cons, FetchStats.mk.injEq] <;> push_cast <;> omega

theorem fetchBatchCollect_map_preserved (results : List (String × FetchResult))
    (stats0 : FetchStats) (m0 : String → Option Repository) (p : String)
    (h : ∀ e ∈ results, e.1 = p → resFails e.2 = false) :
    (fetchBatchCollect results stats0 m0).2 p = m0 p := by
  induction results generalizing stats0 m0 with
  | nil => rfl
  | cons e rest ih =>
    obtain ⟨q, res⟩ := e
    have hq : q = p → resFails res = false := h (q, res) (by simp)
    have hrest : ∀ e ∈ rest, e.1 = p → resFails e.2 = false :=
      fun e he => h e (by simp [he])
    by_cases hs : res.Skipped = true
    · simp only [fetchBatchCollect, applyFetchOutcome, hs, if_true]
      exact ih _ _ hrest
    · by_cases hsu : res.Success = true
      · simp only [fetchBatchCollect, applyFetchOutcome, hs, hsu, if_false, if_true,
          Bool.false_eq_true]
        exact ih _ _ hrest
      · have hqp : q ≠ p := by
          intro hq'
          have := hq hq'
          simp [resFails, hs, hsu] at this
        simp only [fetchBatchCollect, applyFetchOutcome, hs, hsu, Bool.false_eq_true,
          if_false]
        rw [ih _ _ hrest]
        have hpq : p ≠ q := Ne.symm hqp
        cases hm : m0 q <;> cases he : res.Error <;> simp [hm, he, hpq]

theorem reposMapOf_eq_of_mem (repos : List (String × Option Repository)) (p : String)
    (x : Option Repository) (hkeys : (repos.map Prod.fst).Nodup) (hmem : (p, x) ∈ repos) :
    reposMapOf repos p = x := by
  induction repos with
  | nil => simp at hmem
  | cons e rest ih =>
    obtain ⟨q, y⟩ := e
    simp only [List.map_cons, List.nodup_cons] at hkeys
    rcases List.mem_cons.mp hmem with heq | hmem'
    · obtain ⟨hq, hy⟩ := Prod.mk.injEq .. ▸ heq
      subst hq
      simp [reposMapOf, List.find?]
      exact hy.symm ▸ rfl
    · have hne : q ≠ p := by
        intro hqp
        exact hkeys.1 (hqp ▸ List.mem_map.mpr ⟨(p, x), hmem', rfl⟩)
      simp only [reposMapOf, List.find?]
      have : (q == p) = false := by simpa using hne
      rw [this]
      exact ih hkeys.2 hmem'

theorem entry_unique_of_nodup_keys (repos : List (String × Option Repository)) (p : String)
    (x y : Option Repository) (hkeys : (repos.map Prod.fst).Nodup)
    (h1 : (p, x) ∈ repos) (h2 : (p, y) ∈ repos) : x = y := by
  have hx := reposMapOf_eq_of_mem repos p x hkeys h1
  have hy := reposMapOf_eq_of_mem repos p y hkeys h2
  rw [hx] at hy
  exact hy

/-- C4: in a `fetchBatch` run, every repository whose fetch is skipped
(bare, no `origin` remote, or no configured URL) contributes exactly 1 to
the `Skipped` counter and nothing to `TotalAttempted` or `Failed` — the
three counters equal the initial values plus the counts of the respective
disjoint entry classes, and a repository with a skip reason falls in the
skip class and in neither of the others — and the repository itself, hence
its snapshot's `fetchError`, is left untouched by the batch. -/
theorem fetchBatch_skipped_repo
    (repos : List (String × Option Repository)) (fenv : String → FetchEnv)
    (opts : ExtractOptions) (order : List String) (stats0 : FetchStats)
    (p : String) (r : Repository)
    (hkeys : (repos.map Prod.fst).Nodup)
    (hperm : order.Perm (fetchBatchSpawn repos stats0).2)
    (hmem : (p, some r) ∈ repos)
    (hskip : fetchSkipReason r (fenv p) = true) :
    (fetchBatch repos fenv opts order stats0).1.Skipped =
      stats0.Skipped + (repos.countP
        (fun e => isBareEntry e || (isFetchJobEntry e && fetchSkipsByRemote (fenv e.1))) : Int) ∧
    (fetchBatch repos fenv opts order stats0).1.TotalAttempted =
      stats0.TotalAttempted + (repos.countP
        (fun e => isFetchJobEntry e && !fetchSkipsByRemote (fenv e.1)) : Int) ∧
    (fetchBatch repos fenv opts order stats0).1.Failed =
      stats0.Failed + (repos.countP
        (fun e => isFetchJobEntry e && fetchFails (fenv e.1) opts) : Int) ∧
    (fetchBatch repos fenv opts order stats0).2 p = some r ∧
    (isBareEntry (p, some r) ||
      (isFetchJobEntry (p, some r) && fetchSkipsByRemote (fenv p))) = true ∧
    (isFetchJobEntry (p, some r) && !fetchSkipsByRemote (fenv p)) = false ∧
    (isFetchJobEntry (p, some r) && fetchFails (fenv p) opts) = false := by
  have hspawn := fetchBatchSpawn_eq repos stats0
  have hperm' : order.Perm ((repos.filter isFetchJobEntry).map Prod.fst) := by
    rw [hspawn] at hperm
    exact hperm
  have hres : ∀ f : FetchResult → Bool,
      (order.map fun q => (q, fetchFromOrigin (fenv q) opts)).countP (fun e => f e.2)
        = repos.countP (fun e => isFetchJobEntry e && f (fetchFromOrigin (fenv e.1) opts)) := by
    intro f
    rw [List.countP_map]
    have h1 : order.countP
          ((fun e : String × FetchResult => f e.2) ∘ fun q => (q, fetchFromOrigin (fenv q) opts))
        = order.countP (fun q => f (fetchFromOrigin (fenv q) opts)) := rfl
    rw [h1, hperm'.countP_eq, List.countP_map, List.countP_filter]
    exact countP_pointwise_eq _ _ _ fun e _ => Bool.and_comm _ _
  have hfb : fetchBatch repos fenv opts order stats0 =
      fetchBatchCollect (order.map fun q => (q, fetchFromOrigin (fenv q) opts))
        (fetchBatchSpawn repos stats0).1 (reposMapOf repos) := rfl
  have hstats := fetchBatchCollect_stats
    (order.map fun q => (q, fetchFromOrigin (fenv q) opts))
    (fetchBatchSpawn repos stats0).1 (reposMapOf repos)
  have hskipcnt : (order.map fun q => (q, fetchFromOrigin (fenv q) opts)).countP
        (fun e => e.2.Skipped)
      = repos.countP (fun e => isFetchJobEntry e && fetchSkipsByRemote (fenv e.1)) := by
    rw [hres fun res => res.Skipped]
    exact countP_pointwise_eq _ _ _ fun e _ => by rw [fetchFromOrigin_skipped_iff]
  have hfailcnt : (order.map fun q => (q, fetchFromOrigin (fenv q) opts)).countP
        (fun e => resFails e.2)
      = repos.countP (fun e => isFetchJobEntry e && fetchFails (fenv e.1) opts) :=
    hres resFails
  rw [hspawn] at hstats
  dsimp only at hstats
  have hdisj : ∀ e : String × Option Repository,
      (isBareEntry e && (isFetchJobEntry e && fetchSkipsByRemote (fenv e.1))) = false := by
    intro e
    rcases e with ⟨q, _ | rr⟩
    · rfl
    · cases hrb : rr.IsBare <;> simp [isBareEntry, isFetchJobEntry, hrb]
  have hsplit := countP_and_split isFetchJobEntry
    (fun e => fetchSkipsByRemote (fenv e.1)) repos
  have hjobmem : p ∈ (repos.filter isFetchJobEntry).map Prod.fst →
      isFetchJobEntry (p, some r) = true := by
    intro hp
    obtain ⟨e, he, hfst⟩ := List.mem_map.mp hp
    obtain ⟨hemem, hejob⟩ := List.mem_filter.mp he
    obtain ⟨q, x⟩ := e
    cases hfst
    have hx : x = some r := entry_unique_of_nodup_keys repos _ x (some r) hkeys hemem hmem
    rw [hx] at hejob
    exact hejob
  have hmapres : ∀ e ∈ (order.map fun q => (q, fetchFromOrigin (fenv q) opts)),
      e.1 = p → resFails e.2 = false := by
    intro e he hep
    obtain ⟨q, hq, rfl⟩ := List.mem_map.mp he
    dsimp at hep
    subst hep
    cases hb : r.IsBare with
    | true =>
      exfalso
      have hj := hjobmem (hperm'.mem_iff.mp hq)
      rw [isFetchJobEntry] at hj
      simp [hb] at hj
    | false =>
      have hsr : fetchSkipsByRemote (fenv q) = true := by
        have := hskip
        rw [fetchSkipReason, hb] at this
        simpa using this
      dsimp only
      rw [fetchFromOrigin_of_remote_skip _ opts hsr]
      rfl
  have hmap : (fetchBatch repos fenv opts order stats0).2 p = some r := by
    rw [hfb, fetchBatchCollect_map_preserved _ _ _ _ hmapres]
    exact reposMapOf_eq_of_mem repos p (some r) hkeys hmem
  refine ⟨?_, ?_, ?_, hmap, ?_, ?_, ?_⟩
  · rw [hfb, hspawn]
    dsimp only
    rw [hstats]
    dsimp only
    rw [hskipcnt, countP_or_disjoint _ _ _ hdisj]
    push_cast
    ring
  · rw [hfb, hspawn]
    dsimp only
    rw [hstats]
    dsimp only
    rw [hskipcnt]
    omega
  · rw [hfb, hspawn]
    dsimp only
    rw [hstats]
    dsimp only
    rw [hfailcnt]
  · cases hb : r.IsBare with
    | true => simp [isBareEntry, hb]
    | false =>
      have hsr : fetchSkipsByRemote (fenv p) = true := by
        have := hskip
        rw [fetchSkipReason, hb] at this
        simpa using this
      simp [isBareEntry, isFetchJobEntry, hb, hsr]
  · cases hb : r.IsBare with
    | true => simp [isFetchJobEntry, hb]
    | false =>
      have hsr : fetchSkipsByRemote (fenv p) = true := by
        have := hskip
        rw [fetchSkipReason, hb] at this
        simpa using this
      simp [isFetchJobEntry, hb, hsr]
  · cases hb : r.IsBare with
    | true => simp [isFetchJobEntry, hb]
    | false =>
      have hsr : fetchSkipsByRemote (fenv p) = true := by
        have := hskip
        rw [fetchSkipReason, hb] at this
        simpa using this
      have : fetchFails (fenv p) opts = false := by
        rw [fetchFails, fetchFromOrigin_of_remote_skip _ opts hsr]
        rfl
      simp [this]

/-- A two-repository batch used to witness the fetch-skip claim: `a` is a
normal repository whose `origin` remote is absent, `b` is bare. -/
def fetchDemoRepos : List (String × Option Repository) :=
  [("a", some { Path := "/w/a", Name := "a" }),
   ("b", some { Path := "/w/b", Name := "b", IsBare := true })]

/-- Fetch environments for `fetchDemoRepos`: repository `a` opens and has
no `origin` remote. -/
def fetchDemoEnv : String → FetchEnv := fun q =>
  if q = "a" then { openRes := .ok {} } else { openRes := .error "missing" }

theorem fetchBatch_skipped_repo_witness :
    (fetchBatch fetchDemoRepos fetchDemoEnv {} ["a"] {}).1.Skipped =
      ({} : FetchStats).Skipped + (fetchDemoRepos.countP
        (fun e => isBareEntry e ||
          (isFetchJobEntry e && fetchSkipsByRemote (fetchDemoEnv e.1))) : Int) ∧
    (fetchBatch fetchDemoRepos fetchDemoEnv {} ["a"] {}).1.TotalAttempted =
      ({} : FetchStats).TotalAttempted + (fetchDemoRepos.countP
        (fun e => isFetchJobEntry e && !fetchSkipsByRemote (fetchDemoEnv e.1)) : Int) ∧
    (fetchBatch fetchDemoRepos fetchDemoEnv {} ["a"] {}).1.Failed =
      ({} : FetchStats).Failed + (fetchDemoRepos.countP
        (fun e => isFetchJobEntry e && fetchFails (fetchDemoEnv e.1) {}) : Int) ∧
    (fetchBatch fetchDemoRepos fetchDemoEnv {} ["a"] {}).2 "a" =
      some { Path := "/w/a", Name := "a" } ∧
    (isBareEntry ("a", some { Path := "/w/a", Name := "a" }) ||
      (isFetchJobEntry ("a", some { Path := "/w/a", Name := "a" }) &&
        fetchSkipsByRemote (fetchDemoEnv "a"))) = true ∧
    (isFetchJobEntry ("a", some { Path := "/w/a", Name := "a" }) &&
      !fetchSkipsByRemote (fetchDemoEnv "a")) = false ∧
    (isFetchJobEntry ("a", some { Path := "/w/a", Name := "a" }) &&
      fetchFails (fetchDemoEnv "a") {}) = false :=
  fetchBatch_skipped_repo fetchDemoRepos fetchDemoEnv {} ["a"] {} "a"
    { Path := "/w/a", Name := "a" }
    (by decide) (by decide) (by decide) (by decide)

/-! ## Scanner (`internal/scanner`)

The filesystem is modelled as a tree of directories and files; paths are
component lists (what `filepath.Join` concatenates), and a directory's
entries are listed in the (sorted) order in which `filepath.WalkDir`
visits them.  The modelled filesystem has no permission errors and no
symbolic links, so the permission branch of `walkFunc` never fires and
`shouldVisit`'s inode bookkeeping never sees a directory twice. -/

mutual
inductive FSNode where
  | dir (entries : FSEntries)
  | file
inductive FSEntries where
  | nil
  | cons (name : String) (node : FSNode) (rest : FSEntries)
end

/-- Lookup of a directory entry by name (`os.Stat` on a child path). -/
def FSEntries.lookup : FSEntries → String → Option FSNode
  | .nil, _ => none
  | .cons n node rest, q => if n = q then some node else rest.lookup q

/-- `os.Stat(child)` succeeds and reports a directory. -/
def hasDirEntry (es : FSEntries) (q : String) : Bool :=
  match es.lookup q with
  | some (.dir _) => true
  | _ => false

/-- `os.Stat(child)` succeeds (any entry kind, as for `HEAD`). -/
def hasEntry (es : FSEntries) (q : String) : Bool :=
  (es.lookup q).isSome

/-- `scanner.IsGitRepository`, over the entries of the inspected
directory.  Returns `(isRepo, isBare)`: a `.git` subdirectory makes a
regular repository; otherwise `HEAD` plus the `refs/` and `objects/`
directories make a bare repository. -/
def IsGitRepository (es : FSEntries) : Bool × Bool :=
  if hasDirEntry es ".git" then (true, false)
  else
    let headExists := hasEntry es "HEAD"
    let refsExists := hasDirEntry es "refs"
    let objsExists := hasDirEntry es "objects"
    if headExists && refsExists && objsExists then (true, true)
    else (false, false)

/-- C9: a directory is classified as a repository iff it has a `.git`
subdirectory (then non-bare) or directly contains a `HEAD` entry, a
`refs/` directory and an `objects/` directory (then bare, when there is
no `.git` subdirectory); with no `.git` subdirectory and any of the three
missing, it is not a repository. -/
theorem isGitRepository_characterization (es : FSEntries) :
    ((IsGitRepository es).1 = true ↔
      (hasDirEntry es ".git" = true ∨
        (hasEntry es "HEAD" = true ∧ hasDirEntry es "refs" = true ∧
          hasDirEntry es "objects" = true))) ∧
    ((IsGitRepository es).2 = true ↔
      (hasDirEntry es ".git" = false ∧ hasEntry es "HEAD" = true ∧
        hasDirEntry es "refs" = true ∧ hasDirEntry es "objects" = true)) := by
  unfold IsGitRepository
  cases h1 : hasDirEntry es ".git" with
  | true => simp [h1]
  | false =>
    cases h2 : hasEntry es "HEAD" <;> cases h3 : hasDirEntry es "refs" <;>
      cases h4 : hasDirEntry es "objects" <;> simp [h1, h2, h3, h4]

/-- A `models.Repository` as created by the scanner, with the filesystem
path kept as its component list. -/
structure ScanRepoRecord where
  Path : List String
  Name : String
  IsBare : Bool
  IsSymlink : Bool
deriving DecidableEq, Repr

/-- The mutable fields of the `scanner` struct that the walk updates,
plus the number of `walkFunc` invocations so far (the points at which the
cancellation signal is polled). -/
structure ScanState where
  repositories : List ScanRepoRecord := []
  dirCount : Nat := 0
  steps : Nat := 0
deriving DecidableEq, Repr

/-- The only walk error the modelled filesystem can produce:
`context.Canceled`, returned by `walkFunc`'s cancellation check. -/
inductive WalkErr where
  | canceled
deriving DecidableEq, Repr

/-- The cancellation signal: `ctx.Done()` is closed from the `k`-th
`walkFunc` invocation on (`none` = the signal never fires). -/
def ctxDone (cancelAt : Option Nat) (step : Nat) : Bool :=
  match cancelAt with
  | none => false
  | some k => k ≤ step

mutual
/-- `scanner.walkFunc` for the entry `node` named `name` at `path`,
together with `filepath.WalkDir`'s recursion into its children: check
cancellation, ignore non-directories, count and inspect directories,
record a repository and skip its contents (`fs.SkipDir`), or recurse. -/
def walkNode (cancelAt : Option Nat) (path : List String) (name : String)
    (node : FSNode) (s : ScanState) : ScanState × Option WalkErr :=
  if ctxDone cancelAt s.steps then
    ({ s with steps := s.steps + 1 }, some .canceled)
  else
    let s1 : ScanState := { s with steps := s.steps + 1 }
    match node with
    | .file => (s1, none)
    | .dir entries =>
      let s2 : ScanState := { s1 with dirCount := s1.dirCount + 1 }
      let detected := IsGitRepository entries
      if detected.1 then
        ({ s2 with repositories := s2.repositories ++
            [{ Path := path, Name := name, IsBare := detected.2, IsSymlink := false }] },
          none)
      else
        walkEntries cancelAt path entries s2

/-- `filepath.WalkDir`'s loop over a directory's entries: visit each in
order, stopping the whole walk when a child returns an error. -/
def walkEntries (cancelAt : Option Nat) (path : List String) (es : FSEntries)
    (s : ScanState) : ScanState × Option WalkErr :=
  match es with
  | .nil => (s, none)
  | .cons n child rest =>
    match walkNode cancelAt (path ++ [n]) n child s with
    | (s', none) => walkEntries cancelAt path rest s'
    | (s', some e) => (s', some e)
end

/-- `models.ScanResult` (the wall-clock `Duration` field is not part of
the functional model). -/
structure ScanResult where
  RootPath : List String
  Repositories : List ScanRepoRecord
  TotalScanned : Nat
  TotalRepos : Nat
  Errors : List String := []
deriving DecidableEq, Repr

/-- `scanner.Scan`: fail fatally when the root is not a directory, walk
the tree, and treat a `context.Canceled` walk error as non-fatal — the
result assembled from the scanner state is returned in that case too. -/
def Scan (root : FSNode) (rootPath : List String) (cancelAt : Option Nat) :
    Except String ScanResult :=
  match root with
  | .file => .error "root path is not a directory"
  | .dir _ =>
    let walked := walkNode cancelAt rootPath (rootPath.getLastD "") root {}
    let mkResult : ScanResult :=
      { RootPath := rootPath,
        Repositories := walked.1.repositories,
        TotalScanned := walked.1.dirCount,
        TotalRepos := walked.1.repositories.length }
    match walked.2 with
    | some e => if e = .canceled then .ok mkResult else .error "error walking directory tree"
    | none => .ok mkResult

mutual
/-- The records the full (uncancelled) walk produces below `node`. -/
def nodeRecords (path : List String) (name : String) : FSNode → List ScanRepoRecord
  | .file => []
  | .dir es =>
    if (IsGitRepository es).1 then
      [{ Path := path, Name := name, IsBare := (IsGitRepository es).2, IsSymlink := false }]
    else entriesRecords path es

/-- The records the full walk produces for a list of entries. -/
def entriesRecords (path : List String) : FSEntries → List ScanRepoRecord
  | .nil => []
  | .cons n child rest => nodeRecords (path ++ [n]) n child ++ entriesRecords path rest
end

mutual
/-- Well-formed directory tree: entry names are unique per directory. -/
def wfNode : FSNode → Bool
  | .file => true
  | .dir es => wfEntries es

def wfEntries : FSEntries → Bool
  | .nil => true
  | .cons n node rest => !hasEntry rest n && wfNode node && wfEntries rest
end

mutual

theorem walkNode_none_no_error (path : List String) (name : String) (node : FSNode)
    (s : ScanState) : (walkNode none path name node s).2 = none := by
  cases node with
  | file => simp [walkNode, ctxDone]
  | dir entries =>
    by_cases h : (IsGitRepository entries).1 = true
    · simp [walkNode, ctxDone, h]
    · simp only [walkNode, ctxDone, Bool.false_eq_true, if_false, h]
      exact walkEntries_none_no_error path entries _

theorem walkEntries_none_no_error (path : List String) (es : FSEntries) (s : ScanState) :
    (walkEntries none path es s).2 = none := by
  cases es with
  | nil => rfl
  | cons n child rest =>
    have hc := walkNode_none_no_error (path ++ [n]) n child s
    unfold walkEntries
    rcases hw : walkNode none (path ++ [n]) n child s with ⟨s', err⟩
    rw [hw] at hc
    dsimp at hc
    subst hc
    exact walkEntries_none_no_error path rest s'

end

mutual

theorem walkNode_ok_repositories (c : Option Nat) (path : List String) (name : String)
    (node : FSNode) (s : ScanState) (h : (walkNode c path name node s).2 = none) :
    (walkNode c path name node s).1.repositories =
      s.repositories ++ nodeRecords path name node := by
  by_cases hc : ctxDone c s.steps = true
  · simp [walkNode, hc] at h
  · cases node with
    | file => simp [walkNode, hc, nodeRecords]
    | dir entries =>
      by_cases hr : (IsGitRepository entries).1 = true
      · simp [walkNode, hc, hr, nodeRecords]
      · simp only [walkNode, hc, hr, Bool.false_eq_true, if_false] at h ⊢
        rw [walkEntries_ok_repositories c path entries _ h]
        simp [nodeRecords, hr]

theorem walkEntries_ok_repositories (c : Option Nat) (path : List String) (es : FSEntries)
    (s : ScanState) (h : (walkEntries c path es s).2 = none) :
    (walkEntries c path es s).1.repositories =
      s.repositories ++ entriesRecords path es := by
  cases es with
  | nil => simp [walkEntries, entriesRecords]
  | cons n child rest =>
    unfold walkEntries at h ⊢
    rcases hw : walkNode c (path ++ [n]) n child s with ⟨s', err⟩
    rw [hw] at h
    cases err with
    | some e => simp at h
    | none =>
      have h1 : s'.repositories = s.repositories ++ nodeRecords (path ++ [n]) n child := by
        have := walkNode_ok_repositories c (path ++ [n]) n child s (by rw [hw])
        rw [hw] at this
        exact this
      dsimp only at h ⊢
      rw [walkEntries_ok_repositories c path rest s' h, h1, entriesRecords,
        List.append_assoc]

end

mutual

theorem walkNode_partial_records (c : Option Nat) (path : List String) (name : String)
    (node : FSNode) (s : ScanState) :
    ∃ pre, (walkNode c path name node s).1.repositories = s.repositories ++ pre ∧
      ∃ t, pre ++ t = nodeRecords path name node := by
  by_cases hc : ctxDone c s.steps = true
  · exact ⟨[], by simp [walkNode, hc], nodeRecords path name node, by simp⟩
  · cases node with
    | file => exact ⟨[], by simp [walkNode, hc], [], by simp [nodeRecords]⟩
    | dir entries =>
      by_cases hr : (IsGitRepository entries).1 = true
      · refine ⟨[{ Path := path, Name := name, IsBare := (IsGitRepository entries).2, IsSymlink := false }], ?_, [], ?_⟩
        · simp [walkNode, hc, hr]
        · simp [nodeRecords, hr]
      · obtain ⟨pre, hp, t, ht⟩ := walkEntries_partial_records c path entries
          { s with steps := s.steps + 1, dirCount := s.dirCount + 1 }
        refine ⟨pre, ?_, t, ?_⟩
        · simp only [walkNode, hc, hr, Bool.false_eq_true, if_false]
          simpa using hp
        · rw [ht, nodeRecords]
          simp [hr]

theorem walkEntries_partial_records (c : Option Nat) (path : List String) (es : FSEntries)
    (s : ScanState) :
    ∃ pre, (walkEntries c path es s).1.repositories = s.repositories ++ pre ∧
      ∃ t, pre ++ t = entriesRecords path es := by
  cases es with
  | nil => exact ⟨[], by simp [walkEntries], [], by simp [entriesRecords]⟩
  | cons n child rest =>
    obtain ⟨pre1, hp1, t1, ht1⟩ := walkNode_partial_records c (path ++ [n]) n child s
    rcases hw : walkNode c (path ++ [n]) n child s with ⟨s', err⟩
    rw [hw] at hp1
    dsimp only at hp1
    cases err with
    | some e =>
      refine ⟨pre1, ?_, t1 ++ entriesRecords path rest, ?_⟩
      · unfold walkEntries
        rw [hw]
        exact hp1
      · rw [← List.append_assoc, ht1, entriesRecords]
    | none =>
      have h1 : s'.repositories = s.repositories ++ nodeRecords (path ++ [n]) n child := by
        have := walkNode_ok_repositories c (path ++ [n]) n child s (by rw [hw])
        rw [hw] at this
        exact this
      obtain ⟨pre2, hp2, t2, ht2⟩ := walkEntries_partial_records c path rest s'
      refine ⟨nodeRecords (path ++ [n]) n child ++ pre2, ?_, t2, ?_⟩
      · unfold walkEntries
        rw [hw]
        dsimp only
        rw [hp2, h1, List.append_assoc]
      · rw [List.append_assoc, ht2, entriesRecords]

end

/-- C3 (amended): when the cancellation signal fires during a scan, the
walk stops at the cancellation point, but `Scan` does not report the
cancellation as an error: it returns a `ScanResult` whose repository list
is the portion of the full scan's list recorded before cancellation (a
prefix, possibly a strict subset).  Only non-cancellation walk errors are
fatal. -/
theorem scan_cancelled_returns_partial (es : FSEntries) (rootPath : List String) (k : Nat) :
    ∃ out outFull,
      Scan (.dir es) rootPath (some k) = .ok out ∧
      Scan (.dir es) rootPath none = .ok outFull ∧
      ∃ rest, out.Repositories ++ rest = outFull.Repositories := by
  have hfullErr := walkNode_none_no_error rootPath (rootPath.getLastD "") (FSNode.dir es) {}
  have hfullRepos := walkNode_ok_repositories none rootPath (rootPath.getLastD "")
    (FSNode.dir es) {} hfullErr
  obtain ⟨pre, hpre, t, ht⟩ := walkNode_partial_records (some k) rootPath
    (rootPath.getLastD "") (FSNode.dir es) {}
  rcases hwB : walkNode (some k) rootPath (rootPath.getLastD "") (FSNode.dir es) {}
    with ⟨sB, errB⟩
  rcases hwF : walkNode none rootPath (rootPath.getLastD "") (FSNode.dir es) {}
    with ⟨sF, errF⟩
  rw [hwB] at hpre
  rw [hwF] at hfullErr hfullRepos
  dsimp only at hpre hfullErr hfullRepos
  subst hfullErr
  refine ⟨{ RootPath := rootPath, Repositories := sB.repositories,
            TotalScanned := sB.dirCount, TotalRepos := sB.repositories.length },
          { RootPath := rootPath, Repositories := sF.repositories,
            TotalScanned := sF.dirCount, TotalRepos := sF.repositories.length },
          ?_, ?_, ?_⟩
  · unfold Scan
    rw [hwB]
    cases errB with
    | none => rfl
    | some e => cases e; rfl
  · unfold Scan
    rw [hwF]
  · refine ⟨t, ?_⟩
    dsimp only
    rw [hpre, hfullRepos]
    simpa using ht

/-- A root with two sibling repositories `a` and `b`, each marked by a
`.git` subdirectory. -/
def demoCancelTree : FSNode :=
  .dir (.cons "a" (.dir (.cons ".git" (.dir .nil) .nil))
       (.cons "b" (.dir (.cons ".git" (.dir .nil) .nil)) .nil))

/-- C3 (counterexample): the claim says a cancellation during the scan
aborts the walk with no partial `ScanOutcome` returned; on this tree the
signal fires at the third `walkFunc` call (after repository `a` was
recorded, before `b` is visited) and `Scan` nevertheless returns — without
an error — an outcome holding only `a`, a strict subset of the two
repositories the full scan reports. -/
theorem scan_cancellation_counterexample :
    Scan demoCancelTree ["root"] (some 2) =
      .ok { RootPath := ["root"],
            Repositories :=
              [{ Path := ["root", "a"], Name := "a", IsBare := false, IsSymlink := false }],
            TotalScanned := 2, TotalRepos := 1 } ∧
    Scan demoCancelTree ["root"] none =
      .ok { RootPath := ["root"],
            Repositories :=
              [{ Path := ["root", "a"], Name := "a", IsBare := false, IsSymlink := false },
               { Path := ["root", "b"], Name := "b", IsBare := false, IsSymlink := false }],
            TotalScanned := 3, TotalRepos := 2 } := by
  constructor <;> decide

/-- Two scanner records whose paths are incomparable: neither lies in the
other's subtree (equality included). -/
def pathsIncomparable (r1 r2 : ScanRepoRecord) : Prop :=
  (¬∃ t, r2.Path = r1.Path ++ t) ∧ (¬∃ t, r1.Path = r2.Path ++ t)

mutual

theorem nodeRecords_separated (path : List String) (name : String) (node : FSNode)
    (hwf : wfNode node = true) :
    (nodeRecords path name node).Pairwise pathsIncomparable ∧
    ∀ r ∈ nodeRecords path name node, ∃ t, r.Path = path ++ t := by
  cases node with
  | file => simp [nodeRecords]
  | dir es =>
    by_cases hr : (IsGitRepository es).1 = true
    · constructor
      · simp [nodeRecords, hr]
      · intro r hrm
        simp only [nodeRecords, hr, if_true] at hrm
        rw [List.mem_singleton] at hrm
        exact ⟨[], by simp [hrm]⟩
    · have hwes : wfEntries es = true := by simpa [wfNode] using hwf
      have hes := entriesRecords_separated path es hwes
      constructor
      · simpa [nodeRecords, hr] using hes.1
      · intro r hrm
        simp only [nodeRecords, hr, Bool.false_eq_true, if_false] at hrm
        obtain ⟨n, t, _, hp⟩ := hes.2 r hrm
        exact ⟨[n] ++ t, by rw [hp, List.append_assoc]⟩

theorem entriesRecords_separated (path : List String) (es : FSEntries)
    (hwf : wfEntries es = true) :
    (entriesRecords path es).Pairwise pathsIncomparable ∧
    ∀ r ∈ entriesRecords path es,
      ∃ n t, hasEntry es n = true ∧ r.Path = (path ++ [n]) ++ t := by
  cases es with
  | nil => simp [entriesRecords]
  | cons n child rest =>
    have hwf' : hasEntry rest n = false ∧ wfNode child = true ∧ wfEntries rest = true := by
      have := hwf
      rw [wfEntries] at this
      simp only [Bool.and_eq_true, Bool.not_eq_true'] at this
      exact ⟨this.1.1, this.1.2, this.2⟩
    obtain ⟨hnn, hwc, hwr⟩ := hwf'
    have Hc := nodeRecords_separated (path ++ [n]) n child hwc
    have Hr := entriesRecords_separated path rest hwr
    constructor
    · rw [entriesRecords]
      refine List.pairwise_append.mpr ⟨Hc.1, Hr.1, ?_⟩
      intro a ha b hb
      obtain ⟨ta, hta⟩ := Hc.2 a ha
      obtain ⟨m, tb, hmem, htb⟩ := Hr.2 b hb
      have hmn : n ≠ m := by
        intro h
        rw [← h] at hmem
        rw [hnn] at hmem
        cases hmem
      constructor
      · rintro ⟨u, hu⟩
        rw [htb, hta] at hu
        simp [List.append_assoc] at hu
        exact hmn hu.1.symm
      · rintro ⟨u, hu⟩
        rw [htb, hta] at hu
        simp [List.append_assoc] at hu
        exact hmn hu.1
    · intro r hrm
      rw [entriesRecords] at hrm
      rcases List.mem_append.mp hrm with hl | hr2
      · obtain ⟨t, ht⟩ := Hc.2 r hl
        exact ⟨n, t, by simp [hasEntry, FSEntries.lookup], ht⟩
      · obtain ⟨m, t, hmem, ht⟩ := Hr.2 r hr2
        refine ⟨m, t, ?_, ht⟩
        by_cases hnm : n = m <;> simp [hasEntry, FSEntries.lookup, hnm]
        · simpa [hasEntry] using hmem

end

/-- C6: on a well-formed tree, a full scan records each detected
repository root exactly once (the recorded paths are distinct) and never
descends into a recorded repository, so no record's path lies strictly
inside another record's path. -/
theorem scan_no_nested_repositories (root : FSNode) (rootPath : List String)
    (out : ScanResult) (hwf : wfNode root = true)
    (hout : Scan root rootPath none = .ok out) :
    (∀ r1 ∈ out.Repositories, ∀ r2 ∈ out.Repositories,
      ¬(r2.Path ≠ r1.Path ∧ ∃ t, r2.Path = r1.Path ++ t)) ∧
    (out.Repositories.map ScanRepoRecord.Path).Nodup := by
  cases root with
  | file => simp [Scan] at hout
  | dir es =>
    have herr := walkNode_none_no_error rootPath (rootPath.getLastD "") (FSNode.dir es) {}
    have hrepos := walkNode_ok_repositories none rootPath (rootPath.getLastD "")
      (FSNode.dir es) {} herr
    have hRec : out.Repositories = nodeRecords rootPath (rootPath.getLastD "")
        (FSNode.dir es) := by
      unfold Scan at hout
      rcases hw : walkNode none rootPath (rootPath.getLastD "") (FSNode.dir es) {}
        with ⟨sF, errF⟩
      rw [hw] at hout herr hrepos
      dsimp only at hout herr hrepos
      subst herr
      simp only [Except.ok.injEq] at hout
      rw [← hout]
      simpa using hrepos
    have H := nodeRecords_separated rootPath (rootPath.getLastD "") (FSNode.dir es) hwf
    have hsymm : Symmetric pathsIncomparable := fun _ _ h => ⟨h.2, h.1⟩
    rw [hRec]
    constructor
    · rintro r1 h1 r2 h2 ⟨hne, t, hext⟩
      by_cases heq : r1 = r2
      · exact hne (heq ▸ rfl)
      · have hinc : pathsIncomparable r1 r2 := H.1.forall hsymm h1 h2 heq
        exact hinc.1 ⟨t, hext⟩
    · have hpw : (nodeRecords rootPath (rootPath.getLastD "") (FSNode.dir es)).Pairwise
          (fun a b => a.Path ≠ b.Path) := by
        refine H.1.imp ?_
        intro a b h hEq
        exact h.1 ⟨[], by rw [← hEq, List.append_nil]⟩
      exact List.pairwise_map.mpr hpw

/-- A repository `outer` (it has a `.git` subdirectory) containing a
nested repository `inner` strictly inside it. -/
def demoNestedTree : FSNode :=
  .dir (.cons "outer"
    (.dir (.cons ".git" (.dir .nil)
      (.cons "inner" (.dir (.cons ".git" (.dir .nil) .nil)) .nil))) .nil)

/-- The outcome of the full scan of `demoNestedTree`: only the outer
repository is reported; the nested one is never visited. -/
def demoNestedScanOutcome : ScanResult :=
  { RootPath := ["root"],
    Repositories :=
      [{ Path := ["root", "outer"], Name := "outer", IsBare := false, IsSymlink := false }],
    TotalScanned := 2, TotalRepos := 1 }

theorem scan_no_nested_repositories_witness :
    wfNode demoNestedTree = true ∧
    Scan demoNestedTree ["root"] none = .ok demoNestedScanOutcome ∧
    ((∀ r1 ∈ demoNestedScanOutcome.Repositories,
      ∀ r2 ∈ demoNestedScanOutcome.Repositories,
      ¬(r2.Path ≠ r1.Path ∧ ∃ t, r2.Path = r1.Path ++ t)) ∧
    (demoNestedScanOutcome.Repositories.map ScanRepoRecord.Path).Nodup) :=
  ⟨by decide, by decide,
    scan_no_nested_repositories demoNestedTree ["root"] demoNestedScanOutcome
      (by decide) (by decide)⟩

/-! ## Status extractor (`internal/gitstatus/status.go`)

The go-git layer is abstracted into a `RepoView`: the resolved HEAD
reference, the configured remotes, the reference store, the commit graph
(hash to parent hashes) and the working-tree state.  Commit hashes are
`Nat`. -/

/-- `plumbing.ReferenceName.IsBranch`: `strings.HasPrefix(name,
"refs/heads/")`, computed over the character list so that it reduces in
the kernel. -/
def refIsBranch (n : String) : Bool := n.toList.take 11 == "refs/heads/".toList

/-- `plumbing.ReferenceName.Short` as used on the resolved HEAD: strip
the `refs/heads/` namespace. -/
def refShort (n : String) : String :=
  if refIsBranch n then String.mk (n.toList.drop 11) else n

/-- The resolved HEAD reference: its full name and the commit it points
at. -/
structure HeadInfo where
  RefName : String
  Hash : Nat
deriving DecidableEq, Repr

/-- Working-tree state as seen by `repo.Worktree()` and
`worktree.Status()`: bare repository, status failure, or a status whose
`IsClean()` is the given boolean. -/
inductive WorktreeView where
  | bare
  | statusFailed (msg : String)
  | statusIsClean (isClean : Bool)
deriving DecidableEq, Repr

/-- Abstract view of one opened repository. -/
structure RepoView where
  head : Except String HeadInfo := .error "reference not found"
  remotes : Except String (List String) := .ok []
  references : List (String × Nat) := []
  commits : List (Nat × List Nat) := []
  worktree : WorktreeView := .bare
deriving DecidableEq, Repr

/-- `repo.Reference(name, false)`. -/
def lookupRef (v : RepoView) (name : String) : Option Nat :=
  match v.references.find? (fun e => e.1 == name) with
  | some e => some e.2
  | none => none

/-- `gitstatus.extractBranch`: detached HEAD gets the `"DETACHED"`
sentinel; a branch HEAD gets the branch's short name. -/
def extractBranch (v : RepoView) (status : GitStatus) : Except String GitStatus :=
  match v.head with
  | .error e => .error ("failed to get HEAD: " ++ e)
  | .ok head =>
    if !refIsBranch head.RefName then
      .ok { status with IsDetached := true, Branch := "DETACHED" }
    else
      .ok { status with IsDetached := false, Branch := refShort head.RefName }

/-- `gitstatus.extractRemote`: `HasRemote` is set from the remote count;
an empty remote list also reports `errNoRemotes`. -/
def extractRemote (v : RepoView) (status : GitStatus) : GitStatus × Option String :=
  match v.remotes with
  | .error e => (status, some e)
  | .ok remotes =>
    if remotes.length > 0 then ({ status with HasRemote := true }, none)
    else ({ status with HasRemote := false }, some "no remotes configured")

/-- `commit.ParentHashes` for a commit in the graph (`[]` when the hash is
not stored). -/
def parentsOf (g : List (Nat × List Nat)) (h : Nat) : List Nat :=
  match g.find? (fun e => e.1 == h) with
  | some e => e.2
  | none => []

/-- One round of ancestor closure: a set of commits together with all
their direct parents. -/
def reachStep (g : List (Nat × List Nat)) (s : Finset Nat) : Finset Nat :=
  s ∪ s.biUnion (fun h => (parentsOf g h).toFinset)

/-- Enough closure rounds to saturate any reachable set in `g`: one more
than the total number of stored parent hashes. -/
def graphFuel (g : List (Nat × List Nat)) : Nat :=
  1 + g.foldr (fun e acc => e.2.length + acc) 0

/-- Model of go-git's `repo.Log` with `From: h`: the set of all commits
reachable from `h` through parent edges, each reported once. -/
def gitLog (g : List (Nat × List Nat)) (h : Nat) : Finset Nat :=
  (reachStep g)^[graphFuel g] ({h} : Finset Nat)

/-- `gitstatus.countCommitsBetween`: collect the commits of
`Log(toHash)` into a set, then count the commits of `Log(fromHash)` that
are not in it. -/
def countCommitsBetween (g : List (Nat × List Nat)) (fromHash toHash : Nat) : Nat :=
  let toCommits := gitLog g toHash
  ((gitLog g fromHash).filter (fun c => c ∉ toCommits)).card

/-- `gitstatus.extractAheadBehind`: resolve `origin/<branch>`, look up
both commits, and count in both directions.  The returned error mirrors
the Go error value (mutations already applied stay applied, as in the
source where `status` is mutated through a pointer). -/
def extractAheadBehind (v : RepoView) (status : GitStatus) : GitStatus × Option String :=
  match v.head with
  | .error e => (status, some e)
  | .ok head =>
    let branchName := refShort head.RefName
    let remoteBranchRefName := "refs/remotes/origin/" ++ branchName
    match lookupRef v remoteBranchRefName with
    | none => ({ status with Ahead := 0, Behind := 0 }, some "reference not found")
    | some remoteHash =>
      match v.commits.find? (fun e => e.1 == head.Hash) with
      | none => (status, some "object not found")
      | some _ =>
        match v.commits.find? (fun e => e.1 == remoteHash) with
        | none => (status, some "object not found")
        | some _ =>
          let ahead := countCommitsBetween v.commits head.Hash remoteHash
          let behind := countCommitsBetween v.commits remoteHash head.Hash
          ({ status with Ahead := ahead, Behind := behind }, none)

/-- `gitstatus.extractStashes`: the `refs/stash` reference exists. -/
def extractStashes (v : RepoView) : Bool :=
  (lookupRef v "refs/stash").isSome

/-- `gitstatus.extractUncommittedChanges`: bare repositories report no
changes with the `ErrIsBareRepository` error (flagged by the boolean);
otherwise `HasChanges` is the negation of the worktree status'
`IsClean()`. -/
def extractUncommittedChanges (v : RepoView) (status : GitStatus) :
    GitStatus × Option (Bool × String) :=
  match v.worktree with
  | .bare =>
    ({ status with HasChanges := false },
      some (true, "worktree not available in a bare repository"))
  | .statusFailed m => (status, some (false, "failed to get worktree status: " ++ m))
  | .statusIsClean isClean => ({ status with HasChanges := !isClean }, none)

/-- `gitstatus.extractGitStatus`: the best-effort pipeline over one opened
repository; each step's error handling mirrors the source. -/
def extractGitStatus (v : RepoView) : GitStatus :=
  let status0 : GitStatus := {}
  let status1 :=
    match extractBranch v status0 with
    | .error e => { status0 with Branch := "N/A", Error := e }
    | .ok st => st
  let status2 :=
    match extractRemote v status1 with
    | (st, some _) => { st with HasRemote := false }
    | (st, none) => st
  let status3 :=
    if status2.HasRemote then
      match extractAheadBehind v status2 with
      | (st, some e) => if st.Error = "" then { st with Error := e } else st
      | (st, none) => st
    else status2
  let status4 := { status3 with HasStashes := extractStashes v }
  match extractUncommittedChanges v status4 with
  | (st, some (isBareErr, e)) =>
    if !isBareErr then
      if st.Error = "" then { st with Error := e } else st
    else st
  | (st, none) => st

/-- Environment of one `Extract` call: the `git.PlainOpen` outcome and
whether the goroutine finishes before the context deadline. -/
structure ExtractEnv where
  opened : Except String RepoView := .error "repository does not exist"
  timesOut : Bool := false
deriving DecidableEq, Repr

/-- `gitstatus.Extract`: wait for the extraction result, the extraction
error, or the timeout, and return a partial snapshot in the two failure
cases. -/
def Extract (env : ExtractEnv) : GitStatus :=
  if env.timesOut then { Branch := "N/A", Error := "timeout" }
  else
    match env.opened with
    | .error e => { Branch := "N/A", Error := "failed to open repository: " ++ e }
    | .ok v => extractGitStatus v

/-- `gitstatus.ExtractBatch`'s collection loop: one result per repository,
keyed by path, gathered in worker completion order. -/
def ExtractBatch (order : List (String × ExtractEnv)) : List (String × GitStatus) :=
  order.foldl (fun statuses job => statuses ++ [(job.1, Extract job.2)]) []

theorem extractRemote_fields (v : RepoView) (st : GitStatus) :
    (extractRemote v st).1.Branch = st.Branch ∧
    (extractRemote v st).1.IsDetached = st.IsDetached := by
  unfold extractRemote
  (repeat' split) <;> simp_all

theorem extractAheadBehind_fields (v : RepoView) (st : GitStatus) :
    (extractAheadBehind v st).1.Branch = st.Branch ∧
    (extractAheadBehind v st).1.IsDetached = st.IsDetached := by
  unfold extractAheadBehind
  (repeat' split) <;> simp_all <;> (repeat' split) <;> simp_all

theorem extractUncommittedChanges_fields (v : RepoView) (st : GitStatus) :
    (extractUncommittedChanges v st).1.Branch = st.Branch ∧
    (extractUncommittedChanges v st).1.IsDetached = st.IsDetached := by
  unfold extractUncommittedChanges
  (repeat' split) <;> simp_all

/-- The first pipeline stage of `extractGitStatus`: the status after
`extractBranch` and its error handling. -/
def statusAfterBranch (v : RepoView) : GitStatus :=
  match extractBranch v {} with
  | .error e => { ({} : GitStatus) with Branch := "N/A", Error := e }
  | .ok st => st

/-- Pipeline stages 2-5 of `extractGitStatus`, over an arbitrary stage-1
status. -/
def statusPipelineTail (v : RepoView) (status1 : GitStatus) : GitStatus :=
  let status2 :=
    match extractRemote v status1 with
    | (st, some _) => { st with HasRemote := false }
    | (st, none) => st
  let status3 :=
    if status2.HasRemote then
      match extractAheadBehind v status2 with
      | (st, some e) => if st.Error = "" then { st with Error := e } else st
      | (st, none) => st
    else status2
  let status4 := { status3 with HasStashes := extractStashes v }
  match extractUncommittedChanges v status4 with
  | (st, some (isBareErr, e)) =>
    if !isBareErr then
      if st.Error = "" then { st with Error := e } else st
    else st
  | (st, none) => st

theorem extractGitStatus_eq_stages (v : RepoView) :
    extractGitStatus v = statusPipelineTail v (statusAfterBranch v) := rfl

theorem stageTwo_fields (v : RepoView) (st1 : GitStatus) :
    ((match extractRemote v st1 with
      | (st, some _) => { st with HasRemote := false }
      | (st, none) => st) : GitStatus).Branch = st1.Branch ∧
    ((match extractRemote v st1 with
      | (st, some _) => { st with HasRemote := false }
      | (st, none) => st) : GitStatus).IsDetached = st1.IsDetached := by
  have hr := extractRemote_fields v st1
  rcases h2 : extractRemote v st1 with ⟨s2, e2⟩
  rw [h2] at hr
  cases e2 <;> simp_all

theorem stageThree_fields (v : RepoView) (st2 : GitStatus) :
    ((if st2.HasRemote then
        match extractAheadBehind v st2 with
        | (st, some e) => if st.Error = "" then { st with Error := e } else st
        | (st, none) => st
      else st2) : GitStatus).Branch = st2.Branch ∧
    ((if st2.HasRemote then
        match extractAheadBehind v st2 with
        | (st, some e) => if st.Error = "" then { st with Error := e } else st
        | (st, none) => st
      else st2) : GitStatus).IsDetached = st2.IsDetached := by
  by_cases hR : st2.HasRemote = true
  · have ha := extractAheadBehind_fields v st2
    rcases h3 : extractAheadBehind v st2 with ⟨s3, e3⟩
    rw [h3] at ha
    simp only [hR, if_true]
    cases e3 with
    | none => simp_all
    | some e => by_cases he : s3.Error = "" <;> simp_all
  · simp_all

theorem stageFive_fields (v : RepoView) (st4 : GitStatus) :
    ((match extractUncommittedChanges v st4 with
      | (st, some (isBareErr, e)) =>
        if !isBareErr then
          if st.Error = "" then { st with Error := e } else st
        else st
      | (st, none) => st) : GitStatus).Branch = st4.Branch ∧
    ((match extractUncommittedChanges v st4 with
      | (st, some (isBareErr, e)) =>
        if !isBareErr then
          if st.Error = "" then { st with Error := e } else st
        else st
      | (st, none) => st) : GitStatus).IsDetached = st4.IsDetached := by
  have hu := extractUncommittedChanges_fields v st4
  rcases h5 : extractUncommittedChanges v st4 with ⟨s5, e5⟩
  rw [h5] at hu
  rcases e5 with _ | ⟨b, msg⟩
  · simp_all
  · cases b <;> by_cases he : s5.Error = "" <;> simp_all

theorem statusPipelineTail_fields (v : RepoView) (st1 : GitStatus) :
    (statusPipelineTail v st1).Branch = st1.Branch ∧
    (statusPipelineTail v st1).IsDetached = st1.IsDetached := by
  unfold statusPipelineTail
  dsimp only
  constructor
  · rw [(stageFive_fields v _).1]
    dsimp only
    rw [(stageThree_fields v _).1, (stageTwo_fields v st1).1]
  · rw [(stageFive_fields v _).2]
    dsimp only
    rw [(stageThree_fields v _).2, (stageTwo_fields v st1).2]

theorem statusAfterBranch_fields (v : RepoView) :
    (statusAfterBranch v).Branch =
      (match v.head with
      | .error _ => "N/A"
      | .ok h => if refIsBranch h.RefName then refShort h.RefName else "DETACHED") ∧
    (statusAfterBranch v).IsDetached =
      (match v.head with
      | .error _ => false
      | .ok h => if refIsBranch h.RefName then false else true) := by
  unfold statusAfterBranch extractBranch
  rcases hh : v.head with e | h
  · simp
  · by_cases hb : refIsBranch h.RefName = true <;> simp [hb]

/-- C2 (amended): every snapshot the status extractor produces satisfies
`isDetached = true ⟹ branch = "DETACHED"`; the converse implication can
fail only when the repository's HEAD resolves to an actual branch whose
short name is the literal string `"DETACHED"` — in exactly that case the
snapshot carries `branch = "DETACHED"` with `isDetached = false`. -/
theorem extract_detached_branch (env : ExtractEnv) :
    ((Extract env).IsDetached = true → (Extract env).Branch = "DETACHED") ∧
    ((Extract env).Branch = "DETACHED" →
      (Extract env).IsDetached = true ∨
      ∃ v h, env.opened = .ok v ∧ v.head = .ok h ∧
        refIsBranch h.RefName = true ∧ refShort h.RefName = "DETACHED") := by
  by_cases ht : env.timesOut = true
  · refine ⟨fun hd => ?_, fun hb => ?_⟩
    · simp [Extract, ht] at hd
    · have hB : (Extract env).Branch = "N/A" := by simp [Extract, ht]
      rw [hB] at hb
      exact absurd hb (by decide)
  · cases ho : env.opened with
    | error e =>
      refine ⟨fun hd => ?_, fun hb => ?_⟩
      · simp [Extract, ht, ho] at hd
      · have hB : (Extract env).Branch = "N/A" := by simp [Extract, ht, ho]
        rw [hB] at hb
        exact absurd hb (by decide)
    | ok v =>
      have hEx : Extract env = extractGitStatus v := by simp [Extract, ht, ho]
      have h1 := statusPipelineTail_fields v (statusAfterBranch v)
      have h2 := statusAfterBranch_fields v
      have hB : (Extract env).Branch = (statusAfterBranch v).Branch := by
        rw [hEx, extractGitStatus_eq_stages, h1.1]
      have hD : (Extract env).IsDetached = (statusAfterBranch v).IsDetached := by
        rw [hEx, extractGitStatus_eq_stages, h1.2]
      rcases hh : v.head with e | h
      · rw [hh] at h2
        dsimp only at h2
        refine ⟨fun hd => ?_, fun hb => ?_⟩
        · rw [hD, h2.2] at hd
          cases hd
        · rw [hB, h2.1] at hb
          exact absurd hb (by decide)
      · by_cases hbr : refIsBranch h.RefName = true
        · rw [hh] at h2
          dsimp only at h2
          simp only [hbr, if_true] at h2
          refine ⟨fun hd => ?_, fun hb => ?_⟩
          · rw [hD, h2.2] at hd
            cases hd
          · right
            refine ⟨v, h, rfl, hh, hbr, ?_⟩
            rw [← h2.1, ← hB]
            exact hb
        · have hbf : refIsBranch h.RefName = false := by simpa using hbr
          rw [hh] at h2
          dsimp only at h2
          simp only [hbf, Bool.false_eq_true, if_false] at h2
          refine ⟨fun _ => ?_, fun _ => ?_⟩
          · rw [hB, h2.1]
          · left
            rw [hD, h2.2]

/-- A repository whose HEAD points at a branch literally named
`DETACHED`. -/
def detachedNamedBranchRepo : RepoView :=
  { head := .ok { RefName := "refs/heads/DETACHED", Hash := 0 },
    remotes := .ok [], references := [], commits := [(0, [])],
    worktree := .statusIsClean true }

/-- The extraction environment for `detachedNamedBranchRepo`: opens fine,
finishes in time. -/
def detachedNamedBranchEnv : ExtractEnv :=
  { opened := .ok detachedNamedBranchRepo }

/-- C2 (counterexample): the claimed equivalence
`isDetached = true ⇔ branch = "DETACHED"` fails on a repository whose HEAD
is an actual branch named `DETACHED`: the produced snapshot has
`branch = "DETACHED"` and `isDetached = false`. -/
theorem extract_detached_counterexample :
    (Extract detachedNamedBranchEnv).Branch = "DETACHED" ∧
    (Extract detachedNamedBranchEnv).IsDetached = false := by
  decide

theorem extractBatch_eq_map (order : List (String × ExtractEnv)) :
    ExtractBatch order = order.map (fun job => (job.1, Extract job.2)) := by
  have hgen : ∀ acc, order.foldl (fun statuses job => statuses ++ [(job.1, Extract job.2)]) acc
      = acc ++ order.map (fun job => (job.1, Extract job.2)) := by
    induction order with
    | nil => intro acc; simp
    | cons x xs ih => intro acc; simp [ih]
  simpa [ExtractBatch] using hgen []

theorem lookup_map_of_mem (l : List (String × ExtractEnv)) (p : String) (env : ExtractEnv)
    (hkeys : (l.map Prod.fst).Nodup) (hmem : (p, env) ∈ l) :
    (l.map (fun job => (job.1, Extract job.2))).lookup p = some (Extract env) := by
  induction l with
  | nil => simp at hmem
  | cons e rest ih =>
    obtain ⟨q, env'⟩ := e
    simp only [List.map_cons, List.nodup_cons] at hkeys
    rcases List.mem_cons.mp hmem with heq | hmem'
    · cases heq
      simp [List.lookup]
    · have hne : q ≠ p := fun h => hkeys.1 (h ▸ List.mem_map.mpr ⟨(p, env), hmem', rfl⟩)
      simp only [List.map_cons, List.lookup]
      have hqp : (p == q) = false := by simpa using Ne.symm hne
      rw [hqp]
      exact ih hkeys.2 hmem'

/-- C7: for a batch whose workers complete in any order, a repository
whose extraction hits the timeout contributes the partial snapshot with
`branch = "N/A"` and `statusError = "timeout"` to the result map, and
every repository of the batch — the others included — has a snapshot in
the map. -/
theorem extractBatch_timeout_partial (jobs order : List (String × ExtractEnv))
    (hperm : order.Perm jobs) (hkeys : (jobs.map Prod.fst).Nodup)
    (p : String) (env : ExtractEnv) (hmem : (p, env) ∈ jobs)
    (htimeout : env.timesOut = true) :
    (ExtractBatch order).lookup p = some { Branch := "N/A", Error := "timeout" } ∧
    ∀ job ∈ jobs, ∃ st, (ExtractBatch order).lookup job.1 = some st := by
  have hkeys' : (order.map Prod.fst).Nodup := ((hperm.map Prod.fst).nodup_iff).mpr hkeys
  rw [extractBatch_eq_map]
  constructor
  · have hmem' : (p, env) ∈ order := hperm.mem_iff.mpr hmem
    rw [lookup_map_of_mem order p env hkeys' hmem']
    simp [Extract, htimeout]
  · intro job hjob
    obtain ⟨q, e⟩ := job
    exact ⟨Extract e, lookup_map_of_mem order q e hkeys' (hperm.mem_iff.mpr hjob)⟩

/-- A two-repository batch: extraction of `slow` exceeds its timeout,
`fast` fails to open. -/
def timeoutDemoJobs : List (String × ExtractEnv) :=
  [("slow", { timesOut := true }), ("fast", { opened := .error "gone" })]

theorem extractBatch_timeout_partial_witness :
    (ExtractBatch timeoutDemoJobs).lookup "slow" =
      some { Branch := "N/A", Error := "timeout" } ∧
    ∀ job ∈ timeoutDemoJobs, ∃ st, (ExtractBatch timeoutDemoJobs).lookup job.1 = some st :=
  extractBatch_timeout_partial timeoutDemoJobs timeoutDemoJobs (List.Perm.refl _)
    (by decide) "slow" { timesOut := true } (by decide) rfl

/-! ## Ancestor reachability and the ahead/behind counts (claim C8)

`gitLog` (the model of go-git's `Log`) is a fuel-bounded closure; the
following lemmas show it computes exactly the commits reachable from the
starting hash through parent edges, so `countCommitsBetween` counts the
set difference of two reachability cones. -/

/-- Commit `b` is reachable from commit `a` by following parent edges. -/
def Reaches (g : List (Nat × List Nat)) (a b : Nat) : Prop :=
  Relation.ReflTransGen (fun x y => y ∈ parentsOf g x) a b

/-- Every hash stored in some parent list of the graph. -/
def allParentVals (g : List (Nat × List Nat)) : Finset Nat :=
  g.foldr (fun e acc => e.2.toFinset ∪ acc) ∅

theorem subset_reachStep (g : List (Nat × List Nat)) (s : Finset Nat) :
    s ⊆ reachStep g s :=
  Finset.subset_union_left

theorem iterate_reachStep_le (g : List (Nat × List Nat)) (s : Finset Nat) :
    ∀ m n, m ≤ n → (reachStep g)^[m] s ⊆ (reachStep g)^[n] s := by
  intro m n hmn
  induction n, hmn using Nat.le_induction with
  | base => exact fun x hx => hx
  | succ n hmn ih =>
    intro x hx
    rw [Function.iterate_succ_apply']
    exact subset_reachStep g _ (ih hx)

theorem reachStep_iterate_sound (g : List (Nat × List Nat)) (h : Nat) :
    ∀ n c, c ∈ (reachStep g)^[n] ({h} : Finset Nat) → Reaches g h c := by
  intro n
  induction n with
  | zero =>
    intro c hc
    rw [Function.iterate_zero_apply, Finset.mem_singleton] at hc
    exact hc ▸ Relation.ReflTransGen.refl
  | succ n ih =>
    intro c hc
    rw [Function.iterate_succ_apply', reachStep, Finset.mem_union] at hc
    rcases hc with hc | hc
    · exact ih c hc
    · obtain ⟨a, ha, hca⟩ := Finset.mem_biUnion.mp hc
      exact Relation.ReflTransGen.tail (ih a ha) (List.mem_toFinset.mp hca)

theorem mem_toFinset_subset_allParentVals (g : List (Nat × List Nat))
    (e : Nat × List Nat) (hmem : e ∈ g) : e.2.toFinset ⊆ allParentVals g := by
  induction g with
  | nil => cases hmem
  | cons f rest ih =>
    have hcons : allParentVals (f :: rest) = f.2.toFinset ∪ allParentVals rest := rfl
    rcases List.mem_cons.mp hmem with heq | hmem'
    · subst heq
      rw [hcons]
      exact Finset.subset_union_left
    · rw [hcons]
      exact (ih hmem').trans Finset.subset_union_right

theorem parentsOf_toFinset_subset (g : List (Nat × List Nat)) (a : Nat) :
    (parentsOf g a).toFinset ⊆ allParentVals g := by
  unfold parentsOf
  cases hf : g.find? (fun e => e.1 == a) with
  | none => simp
  | some e =>
    exact mem_toFinset_subset_allParentVals g e (List.mem_of_find?_eq_some hf)

theorem reachStep_iterate_bounded (g : List (Nat × List Nat)) (h : Nat) :
    ∀ n, (reachStep g)^[n] ({h} : Finset Nat) ⊆ {h} ∪ allParentVals g := by
  intro n
  induction n with
  | zero => simp
  | succ n ih =>
    rw [Function.iterate_succ_apply', reachStep]
    refine Finset.union_subset ih ?_
    refine (Finset.biUnion_subset.mpr fun a _ => parentsOf_toFinset_subset g a).trans ?_
    exact Finset.subset_union_right

theorem allParentVals_card_le (g : List (Nat × List Nat)) :
    (allParentVals g).card ≤ g.foldr (fun e acc => e.2.length + acc) 0 := by
  induction g with
  | nil => simp [allParentVals]
  | cons f rest ih =>
    rw [allParentVals, List.foldr_cons, List.foldr_cons]
    calc (f.2.toFinset ∪ rest.foldr (fun e acc => e.2.toFinset ∪ acc) ∅).card
        ≤ f.2.toFinset.card + (allParentVals rest).card := Finset.card_union_le _ _
      _ ≤ f.2.length + rest.foldr (fun e acc => e.2.length + acc) 0 :=
          Nat.add_le_add f.2.toFinset_card_le ih

theorem reachStep_iterate_growth (g : List (Nat × List Nat)) (h : Nat) :
    ∀ n, (∀ k, k < n →
        (reachStep g)^[k] ({h} : Finset Nat) ≠ (reachStep g)^[k + 1] ({h} : Finset Nat)) →
      n + 1 ≤ ((reachStep g)^[n] ({h} : Finset Nat)).card := by
  intro n
  induction n with
  | zero => intro _; simp
  | succ n ih =>
    intro hne
    have h1 : n + 1 ≤ ((reachStep g)^[n] ({h} : Finset Nat)).card :=
      ih fun k hk => hne k (Nat.lt_succ_of_lt hk)
    have hss : (reachStep g)^[n] ({h} : Finset Nat) ⊂
        (reachStep g)^[n + 1] ({h} : Finset Nat) :=
      lt_of_le_of_ne (iterate_reachStep_le g _ n (n + 1) (Nat.le_succ n))
        (hne n (Nat.lt_succ_self n))
    exact Nat.lt_of_le_of_lt h1 (Finset.card_lt_card hss)

theorem reachStep_fix_exists (g : List (Nat × List Nat)) (h : Nat) :
    ∃ k, k < graphFuel g ∧
      (reachStep g)^[k] ({h} : Finset Nat) = (reachStep g)^[k + 1] ({h} : Finset Nat) := by
  by_contra hcon
  push_neg at hcon
  have hgrow := reachStep_iterate_growth g h (graphFuel g) hcon
  have hsub := reachStep_iterate_bounded g h (graphFuel g)
  have hcard : ((reachStep g)^[graphFuel g] ({h} : Finset Nat)).card ≤ graphFuel g := by
    calc ((reachStep g)^[graphFuel g] ({h} : Finset Nat)).card
        ≤ ({h} ∪ allParentVals g : Finset Nat).card := Finset.card_le_card hsub
      _ ≤ ({h} : Finset Nat).card + (allParentVals g).card := Finset.card_union_le _ _
      _ ≤ 1 + g.foldr (fun e acc => e.2.length + acc) 0 := by
          simpa using Nat.add_le_add (le_refl 1) (allParentVals_card_le g)
      _ = graphFuel g := rfl
  omega

theorem reachStep_stab (g : List (Nat × List Nat)) (h : Nat) (k : Nat)
    (hfix : (reachStep g)^[k] ({h} : Finset Nat) = (reachStep g)^[k + 1] ({h} : Finset Nat)) :
    ∀ m, k ≤ m →
      (reachStep g)^[m] ({h} : Finset Nat) = (reachStep g)^[k] ({h} : Finset Nat) := by
  intro m hkm
  induction m, hkm using Nat.le_induction with
  | base => rfl
  | succ m hkm ih =>
    rw [Function.iterate_succ_apply', ih,
      ← Function.iterate_succ_apply' (reachStep g) k ({h} : Finset Nat), ← hfix]

theorem gitLog_fixpoint (g : List (Nat × List Nat)) (h : Nat) :
    reachStep g (gitLog g h) = gitLog g h := by
  obtain ⟨k, hk, hfix⟩ := reachStep_fix_exists g h
  have h1 := reachStep_stab g h k hfix (graphFuel g) (Nat.le_of_lt hk)
  unfold gitLog
  rw [h1, ← Function.iterate_succ_apply' (reachStep g) k ({h} : Finset Nat), ← hfix]

theorem reaches_mem_gitLog (g : List (Nat × List Nat)) (h c : Nat)
    (hr : Reaches g h c) : c ∈ gitLog g h := by
  induction hr with
  | refl =>
    exact iterate_reachStep_le g _ 0 (graphFuel g) (Nat.zero_le _) (by simp)
  | tail hab hbc ih =>
    rw [← gitLog_fixpoint g h, reachStep, Finset.mem_union]
    right
    exact Finset.mem_biUnion.mpr ⟨_, ih, List.mem_toFinset.mpr hbc⟩

theorem mem_gitLog_iff (g : List (Nat × List Nat)) (h c : Nat) :
    c ∈ gitLog g h ↔ Reaches g h c :=
  ⟨reachStep_iterate_sound g h (graphFuel g) c, reaches_mem_gitLog g h c⟩

/-- C8: when the remote-tracking reference `origin/<branch>` exists and
both tips are stored commits, `extractAheadBehind` reports `Ahead` as the
number of commits reachable from the local HEAD commit but not from the
remote tip, and `Behind` as the number of commits reachable from the
remote tip but not from local HEAD — each count the cardinality of the
corresponding reachability set difference, as computed by
`countCommitsBetween` walking the full history of one tip and testing
membership against the history of the other. -/
theorem extractAheadBehind_counts (v : RepoView) (status : GitStatus) (h : HeadInfo)
    (hh : v.head = .ok h) (remoteHash : Nat)
    (hr : lookupRef v ("refs/remotes/origin/" ++ refShort h.RefName) = some remoteHash)
    (hl : (v.commits.find? (fun e => e.1 == h.Hash)).isSome = true)
    (hrc : (v.commits.find? (fun e => e.1 == remoteHash)).isSome = true) :
    ∃ A B : Finset Nat,
      (∀ c, c ∈ A ↔ (Reaches v.commits h.Hash c ∧ ¬Reaches v.commits remoteHash c)) ∧
      (∀ c, c ∈ B ↔ (Reaches v.commits remoteHash c ∧ ¬Reaches v.commits h.Hash c)) ∧
      (extractAheadBehind v status).1.Ahead = A.card ∧
      (extractAheadBehind v status).1.Behind = B.card ∧
      (extractAheadBehind v status).2 = none := by
  obtain ⟨el, hel⟩ := Option.isSome_iff_exists.mp hl
  obtain ⟨er, her⟩ := Option.isSome_iff_exists.mp hrc
  have hout : extractAheadBehind v status =
      ({ status with Ahead := countCommitsBetween v.commits h.Hash remoteHash,
                     Behind := countCommitsBetween v.commits remoteHash h.Hash }, none) := by
    unfold extractAheadBehind
    simp only [hh, hr, hel, her]
  refine ⟨(gitLog v.commits h.Hash).filter (fun c => c ∉ gitLog v.commits remoteHash),
         (gitLog v.commits remoteHash).filter (fun c => c ∉ gitLog v.commits h.Hash),
         ?_, ?_, ?_, ?_, ?_⟩
  · intro c
    simp [Finset.mem_filter, mem_gitLog_iff]
  · intro c
    simp [Finset.mem_filter, mem_gitLog_iff]
  · rw [hout]
    rfl
  · rw [hout]
    rfl
  · rw [hout]

/-- A repository on branch `main` at commit 1, with `origin/main` at
commit 2, both children of the root commit 0: one commit ahead, one
behind. -/
def aheadBehindDemoRepo : RepoView :=
  { head := .ok { RefName := "refs/heads/main", Hash := 1 },
    remotes := .ok ["origin"],
    references := [("refs/remotes/origin/main", 2)],
    commits := [(0, []), (1, [0]), (2, [0])],
    worktree := .statusIsClean true }

theorem extractAheadBehind_counts_witness :
    ∃ A B : Finset Nat,
      (∀ c, c ∈ A ↔ (Reaches aheadBehindDemoRepo.commits 1 c ∧
        ¬Reaches aheadBehindDemoRepo.commits 2 c)) ∧
      (∀ c, c ∈ B ↔ (Reaches aheadBehindDemoRepo.commits 2 c ∧
        ¬Reaches aheadBehindDemoRepo.commits 1 c)) ∧
      (extractAheadBehind aheadBehindDemoRepo {}).1.Ahead = A.card ∧
      (extractAheadBehind aheadBehindDemoRepo {}).1.Behind = B.card ∧
      (extractAheadBehind aheadBehindDemoRepo {}).2 = none :=
  extractAheadBehind_counts aheadBehindDemoRepo {}
    { RefName := "refs/heads/main", Hash := 1 } rfl 2 (by decide) (by decide) (by decide)

end Gitree
